import Mathlib

/-
Shallow embedding of the pssh repository (Go).

Package ssh (src/unnamed/part_001): the Host record, NewHost, getOptVal,
joinStrings, loadSSHConfig (recursive per-file loader with Include handling)
and LoadSSHConfig (multi-file loader with hostname grouping).

Package tui (src/tui/tui.go): the selection controller pieces the claims
touch: filterHosts, hostsToRows and the enter branch of Model.Update.

External collaborators are modelled as explicit parameters:
the filesystem plus ssh_config.Decode become a function from resolved paths
to an FsFile outcome; os.UserHomeDir becomes the home argument; the Go map
iteration order of the grouping step becomes an order argument constrained
to be a permutation of the map keys; the fuzzy library becomes a ranking
function argument.  Go runtime recursion is given an explicit fuel so the
loader is total; fuel exhaustion is a distinguished error that models the
unguarded infinite include recursion of the source.
-/

set_option autoImplicit false

namespace Pssh

/-- A parsed configuration node.  Models ssh_config.Node: KV nodes carry a
key, a value and the leading whitespace that their String() rendering
reproduces; every other node kind is represented by its rendering alone,
which is all the source reads from it. -/
inductive Node where
  | kv (leadingSpace : Nat) (key value : String)
  | other (rendered : String)
deriving DecidableEq

/-- Models the Go String() method of a node: a KV prints its leading
whitespace, the key, one space and the value. -/
def Node.render : Node → String
  | .kv n k v => String.mk (List.replicate n ' ') ++ k ++ " " ++ v
  | .other s => s

/-- A parsed host block.  Models ssh_config.Host: the pattern strings in
declaration order and the nodes in declaration order. -/
structure SSHHost where
  patterns : List String
  nodes : List Node
deriving DecidableEq

/-- The canonical Host record of package ssh.  The non-owning back
reference to the original parsed block is omitted: no claim reads it and
the source never reads it after construction. -/
structure Host where
  name : String
  aliases : String
  user : String
  hostname : String
  port : String
  proxyCommand : String
deriving DecidableEq

/-- Models Go strings.ToLower, character by character.  Agrees with Go on
the ASCII text the source lowercases. -/
def strToLower (s : String) : String :=
  String.mk (s.data.map Char.toLower)

/-- Models Go strings.HasPrefix, character by character. -/
def strStartsWith (s pre : String) : Bool :=
  s.data.take pre.data.length == pre.data

/-- Drops the first n characters; used to model Go strings.CutPrefix once
the prefix has been checked. -/
def strDrop (s : String) (n : Nat) : String :=
  String.mk (s.data.drop n)

/-- Models Go strings.TrimSpace: strip whitespace from both ends. -/
def strTrim (s : String) : String :=
  String.mk (((s.data.dropWhile Char.isWhitespace).reverse.dropWhile Char.isWhitespace).reverse)

/-- Models Go strings.EqualFold on directive keys.  EqualFold uses Unicode
simple case folding, which agrees with lowercasing on the ASCII keys the
source compares. -/
def eqFold (a b : String) : Bool :=
  strToLower a == strToLower b

/-- The scanning loop of getOptVal over the nodes of a block: the first KV
node whose key matches case-insensitively yields its value; other node
kinds are skipped (the Go type assertion to *ssh_config.KV fails). -/
def getOptValNodes (opt : String) : List Node → String
  | [] => ""
  | .kv _ k v :: rest => if eqFold k opt then v else getOptValNodes opt rest
  | .other _ :: rest => getOptValNodes opt rest

/-- Go func getOptVal: first case-insensitive match in declaration order,
empty string when absent. -/
def getOptVal (host : SSHHost) (opt : String) : String :=
  getOptValNodes opt host.nodes

/-- Go func joinStrings: writes ", " between consecutive elements. -/
def joinStrings (ss : List String) : String :=
  String.intercalate ", " ss

/-- Go func NewHost: name is the first pattern (empty when the block has
no patterns); aliases renders the remaining patterns parenthesized and
comma-joined; hostname is the first matching hostname directive, falling
back to the first pattern when the lookup is empty and a pattern exists. -/
def NewHost (host : SSHHost) : Host :=
  let name := match host.patterns with
    | [] => ""
    | p :: _ => p
  let aliases :=
    if host.patterns.length > 1 then "(" ++ joinStrings host.patterns.tail ++ ")" else ""
  let hn := getOptVal host "hostname"
  let hostname := if hn = "" ∧ host.patterns ≠ [] then name else hn
  { name := name
    aliases := aliases
    user := getOptVal host "user"
    hostname := hostname
    port := getOptVal host "port"
    proxyCommand := getOptVal host "proxycommand" }

/-- Outcome of opening and decoding one configuration path.  Models
os.Open followed by ssh_config.Decode: the file may be absent, may fail
to open for another reason, may fail to decode, or yields its parsed host
blocks.  Path cleaning (filepath.Clean) is absorbed into this abstract
map from resolved paths to outcomes. -/
inductive FsFile where
  | notFound
  | openFailOther
  | decodeFail
  | blocks (bs : List SSHHost)
deriving DecidableEq

deriving instance DecidableEq for Except

/-- Errors of the loading pipeline.  openErr and decodeErr carry the
resolved path embedded in the Go error message; fuelExhausted models the
unguarded include recursion never returning. -/
inductive LoadErr where
  | openErr (fp : String)
  | decodeErr (fp : String)
  | fuelExhausted
deriving DecidableEq

/-- Path expansion at the top of loadSSHConfig: a leading home shorthand
prefix is substituted with the home directory (filepath.Join on the
already-clean components), any other path is untouched. -/
def expandPath (path home : String) : String :=
  if strStartsWith path "~/" then home ++ "/" ++ strDrop path 2 else path

/-- Models strings.CutPrefix applied to the lowercased rendering of a
node, followed by strings.TrimSpace: the trimmed include path when the
lowercased line starts with "include ", none otherwise.  Note the source
lowercases the whole line before cutting, so the included path is the
lowercased one. -/
def cutIncludeLine (n : Node) : Option String :=
  let t := strToLower (Node.render n)
  if strStartsWith t "include " then some (strTrim (strDrop t 8)) else none

/-- The include scan inside a wildcard block: each node carrying an
Include directive has its path loaded via the supplied recursive loader;
loaded hosts are appended in node order and any error aborts
immediately. -/
def scanIncludes (load : String → Except LoadErr (List SSHHost)) :
    List Node → Except LoadErr (List SSHHost)
  | [] => .ok []
  | n :: rest =>
    match cutIncludeLine n with
    | none => scanIncludes load rest
    | some incPath =>
      match load incPath with
      | .error e => .error e
      | .ok hs =>
        match scanIncludes load rest with
        | .error e => .error e
        | .ok more => .ok (hs ++ more)

/-- The block loop of loadSSHConfig: for each parsed block, first splice
in the hosts of any Include directives when the first pattern is the
universal wildcard, then keep the block itself unless it has no patterns
or its first pattern is the wildcard. -/
def processBlocks (load : String → Except LoadErr (List SSHHost)) :
    List SSHHost → Except LoadErr (List SSHHost)
  | [] => .ok []
  | b :: rest =>
    match (if b.patterns.head? = some "*" then scanIncludes load b.nodes else .ok []) with
    | .error e => .error e
    | .ok inc =>
      match processBlocks load rest with
      | .error e => .error e
      | .ok more =>
        .ok (inc ++ (if b.patterns = [] ∨ b.patterns.head? = some "*" then [] else [b]) ++ more)

/-- Go func loadSSHConfig: expand the path, open and decode it, treat a
missing /etc/ssh/ssh_config (compared against the original, unexpanded
path) as zero contributed hosts, propagate any other open failure or any
decode failure with the resolved path, then run the block loop with this
function (at one less fuel) as the recursive include loader. -/
def loadSSHConfig : Nat → (String → FsFile) → String → String →
    Except LoadErr (List SSHHost)
  | 0, _, _, _ => .error .fuelExhausted
  | fuel + 1, fs, path, home =>
    let fp := expandPath path home
    match fs fp with
    | .notFound =>
      if path = "/etc/ssh/ssh_config" then .ok [] else .error (.openErr fp)
    | .openFailOther => .error (.openErr fp)
    | .decodeFail => .error (.decodeErr fp)
    | .blocks bs => processBlocks (fun p => loadSSHConfig fuel fs p home) bs

/-- The path loop at the top of LoadSSHConfig: load every supplied path in
order and concatenate the contributed blocks, aborting on the first
error. -/
def loadAllBlocks (fuel : Nat) (fs : String → FsFile) (home : String) :
    List String → Except LoadErr (List SSHHost)
  | [] => .ok []
  | p :: rest =>
    match loadSSHConfig fuel fs p home with
    | .error e => .error e
    | .ok hs =>
      match loadAllBlocks fuel fs home rest with
      | .error e => .error e
      | .ok more => .ok (hs ++ more)

/-- The value stored under one key of the grouping map: hosts are appended
to their bucket in discovery order, so a bucket equals the discovery-order
filter of the provisional hosts by that hostname. -/
def groupOf (hosts : List Host) (k : String) : List Host :=
  hosts.filter (fun h => h.hostname == k)

/-- The body of the grouping loop of LoadSSHConfig for one bucket: empty
buckets are skipped, singleton buckets pass through unchanged, larger
buckets keep the first member as primary, accumulate the names of the
other members and then the pre-existing non-empty aliases of every member
(the primary included), and replace the primary aliases with the
parenthesized comma-joined accumulator. -/
def mergeGroup : List Host → Option Host
  | [] => none
  | [h] => some h
  | primary :: rest =>
    let acc := rest.map (fun h => h.name)
    let acc := acc ++ ((primary :: rest).filter (fun h => h.aliases != "")).map (fun h => h.aliases)
    some { primary with aliases := "(" ++ joinStrings acc ++ ")" }

/-- The grouping loop of LoadSSHConfig, parameterized by the order in
which the Go map range visits its keys. -/
def collapse (hosts : List Host) (order : List String) : List Host :=
  order.filterMap (fun k => mergeGroup (groupOf hosts k))

/-- Key set of the grouping map in first-discovery order, carrying the
keys already seen. -/
def groupKeysAux (seen : List String) : List Host → List String
  | [] => []
  | h :: t =>
    if h.hostname ∈ seen then groupKeysAux seen t
    else h.hostname :: groupKeysAux (h.hostname :: seen) t

/-- Key set of the grouping map in first-discovery order.  The Go map
holds exactly these keys; its range order is an arbitrary permutation of
them. -/
def groupKeys (hosts : List Host) : List String :=
  groupKeysAux [] hosts

/-- An order parameter is an admissible model of the Go map range order
exactly when it visits every key of the grouping map once. -/
abbrev admissibleOrder (hosts : List Host) (order : List String) : Prop :=
  order.Perm (groupKeys hosts)

/-- Go func LoadSSHConfig: load the blocks of every supplied path, build
the provisional hosts with NewHost, then group by hostname and collapse
each bucket, visiting the buckets in the supplied map range order. -/
def LoadSSHConfig (fuel : Nat) (fs : String → FsFile) (home : String)
    (paths : List String) (order : List String) : Except LoadErr (List Host) :=
  (loadAllBlocks fuel fs home paths).map
    (fun blocks => collapse (blocks.map NewHost) order)

/-- The composite searchable string built by Model.filterHosts for one
host: fmt.Sprintf with five space-separated fields. -/
def compositeString (h : Host) : String :=
  h.name ++ " " ++ h.aliases ++ " " ++ h.user ++ " " ++ h.hostname ++ " " ++ h.port

/-- Go method Model.filterHosts as a pure function of the full collection
and the query.  The fuzzy library is the fuzzyFind parameter: given the
query and the composite targets it returns the indices of the matching
targets in its rank order, which the loop maps back to hosts. -/
def filterHosts (fuzzyFind : String → List String → List Nat)
    (hosts : List Host) (searchTerm : String) : List Host :=
  if searchTerm = "" then hosts
  else
    let targets := hosts.map compositeString
    let ranks := fuzzyFind searchTerm targets
    ranks.filterMap (fun i => hosts[i]?)

/-- Go func hostsToRows: one row per host with the five displayed columns
in order. -/
def hostsToRows (hosts : List Host) : List (List String) :=
  hosts.map (fun h => [h.name, h.aliases, h.user, h.hostname, h.port])

/-- The slice of the bubbles table state the enter branch reads. -/
structure TableModel where
  rows : List (List String)
  cursor : Nat
deriving DecidableEq

/-- Models the bubbles table SelectedRow method: the row under the cursor,
or nil (here none) when the cursor is out of range. -/
def TableModel.selectedRow (t : TableModel) : Option (List String) :=
  t.rows[t.cursor]?

/-- The tui.Model state the claims touch.  textValue models the text
input value (the query); quitting and selectedHost as in the source. -/
structure Model where
  hosts : List Host
  filteredHosts : List Host
  textValue : String
  table : TableModel
  quitting : Bool
  selectedHost : Option Host
deriving DecidableEq

/-- The lookup loop of the enter branch of Model.Update: the first host of
the filtered collection whose Name equals the selected row's first column
(the loop breaks at the first match; no match leaves selectedHost
untouched). -/
def findHostByName : List Host → String → Option Host
  | [], _ => none
  | h :: t, n => if h.name == n then some h else findHostByName t n

/-- The "enter" case of Model.Update: read the selected row; when it is
non-empty resolve it back to a host by display name and store it in
selectedHost; in every case return the model together with a tea.Quit
command (the Bool component: true means a quit command is emitted and the
session terminates). -/
def updateEnter (m : Model) : Model × Bool :=
  let m1 :=
    match m.table.selectedRow with
    | some (c :: _) =>
      match findHostByName m.filteredHosts c with
      | some h => { m with selectedHost := some h }
      | none => m
    | _ => m
  (m1, true)

/-- Written from the words of the spec's grouping/merge rule, for the
refinement claim: the first-discovered member becomes primary; every
other member's name is appended to an alias accumulator, then every
member's pre-existing non-empty aliases string (the primary's own
included); the accumulator is rendered parenthesized and comma-joined and
replaces the primary's aliases; only the primary survives; groups of one
pass through unchanged. -/
def mergeGroupSpec : List Host → Option Host
  | [] => none
  | [h] => some h
  | primary :: others =>
    let acc :=
      others.map (fun h => h.name) ++
        ((primary :: others).filter (fun h => h.aliases != "")).map (fun h => h.aliases)
    some { primary with aliases := "(" ++ String.intercalate ", " acc ++ ")" }

/-- The key/value pairs of a block's nodes, in declaration order; the
declaration-order view of the data getOptVal scans. -/
def kvPairs : List Node → List (String × String)
  | [] => []
  | .kv _ k v :: rest => (k, v) :: kvPairs rest
  | .other _ :: rest => kvPairs rest

/-- The grouping loop body coincides with the merge rule as the spec words
it. -/
theorem mergeGroup_eq_spec (g : List Host) : mergeGroup g = mergeGroupSpec g := by
  match g with
  | [] => rfl
  | [h] => rfl
  | p :: q :: r => rfl

/-- Merging a non-empty bucket yields a host; every field except aliases
is the first member's. -/
theorem mergeGroup_fields (p : Host) (r : List Host) :
    ∃ out, mergeGroup (p :: r) = some out ∧ out.name = p.name ∧ out.user = p.user ∧
      out.hostname = p.hostname ∧ out.port = p.port ∧ out.proxyCommand = p.proxyCommand := by
  match r with
  | [] => exact ⟨p, rfl, rfl, rfl, rfl, rfl, rfl⟩
  | q :: r' => exact ⟨_, rfl, rfl, rfl, rfl, rfl, rfl⟩

/-- Every host emitted by the grouping loop agrees with some provisional
host on every field except aliases. -/
theorem collapse_mem (hosts : List Host) (order : List String) (h : Host)
    (hmem : h ∈ collapse hosts order) :
    ∃ p, p ∈ hosts ∧ h.name = p.name ∧ h.user = p.user ∧ h.hostname = p.hostname ∧
      h.port = p.port ∧ h.proxyCommand = p.proxyCommand := by
  rcases List.mem_filterMap.mp hmem with ⟨k, _, hsome⟩
  rcases hg : groupOf hosts k with _ | ⟨p, r⟩
  · rw [hg] at hsome
    simp [mergeGroup] at hsome
  · rw [hg] at hsome
    rcases mergeGroup_fields p r with ⟨out, hout, h1, h2, h3, h4, h5⟩
    rw [hout] at hsome
    cases hsome
    have hp : p ∈ groupOf hosts k := by rw [hg]; exact List.mem_cons_self p r
    exact ⟨p, List.mem_of_mem_filter hp, h1, h2, h3, h4, h5⟩

/-- The scanning loop of getOptVal equals first-match lookup over the
declaration-order key/value pairs. -/
theorem getOptValNodes_eq_find (opt : String) (ns : List Node) :
    getOptValNodes opt ns =
      (((kvPairs ns).find? (fun kv => eqFold kv.1 opt)).map Prod.snd).getD "" := by
  induction ns with
  | nil => rfl
  | cons n rest ih =>
    cases n with
    | kv sp k v =>
      by_cases hk : eqFold k opt
      · simp [getOptValNodes, kvPairs, List.find?, hk]
      · simp only [getOptValNodes, kvPairs, List.find?]
        rw [Bool.of_not_eq_true hk]
        simpa using ih
    | other s => simpa [getOptValNodes, kvPairs] using ih

end Pssh

namespace Pssh

/-- C1: the grouping step of LoadSSHConfig implements exactly the
spec-worded merge rule: per hostname bucket, the first-discovered member
is primary, the other members' names and then every member's pre-existing
non-empty aliases (the primary's included) accumulate into a
parenthesized comma-joined list replacing the primary's aliases, only the
primary is emitted, and singleton buckets pass through unchanged. -/
theorem c1_grouping_merge_rule :
    (∀ (hosts : List Host) (order : List String),
      collapse hosts order = order.filterMap (fun k => mergeGroupSpec (groupOf hosts k))) ∧
    (∀ (fuel : Nat) (fs : String → FsFile) (home : String) (paths order : List String),
      LoadSSHConfig fuel fs home paths order =
        (loadAllBlocks fuel fs home paths).map
          (fun blocks => collapse (blocks.map NewHost) order)) := by
  constructor
  · intro hosts order
    simp only [collapse, mergeGroup_eq_spec]
  · intro _ _ _ _ _
    rfl

/-- C5: directive lookup scans the block's key/value pairs in declaration
order, compares keys case-insensitively, returns the first matching value
and the empty string when no pair matches. -/
theorem c5_first_match_lookup (host : SSHHost) (opt : String) :
    getOptVal host opt =
      (((kvPairs host.nodes).find? (fun kv => eqFold kv.1 opt)).map Prod.snd).getD "" :=
  getOptValNodes_eq_find opt host.nodes

/-- C8: filtering with the empty query is the identity on the host
collection, in its original order, for every fuzzy ranking function. -/
theorem c8_empty_query_identity (fuzzyFind : String → List String → List Nat)
    (hosts : List Host) : filterHosts fuzzyFind hosts "" = hosts := by
  rfl

/-- C10: the grouping step changes only the aliases field of the first
member of a multi-member bucket: name, user, hostname, port and
proxyCommand of the emitted host equal those of the first member,
singleton buckets are emitted entirely unmodified, and every host of the
final collection agrees with some provisional host on every field except
aliases. -/
theorem c10_grouping_frame :
    (∀ h : Host, mergeGroup [h] = some h) ∧
    (∀ (p q : Host) (r : List Host),
      ∃ out, mergeGroup (p :: q :: r) = some out ∧ out.name = p.name ∧ out.user = p.user ∧
        out.hostname = p.hostname ∧ out.port = p.port ∧ out.proxyCommand = p.proxyCommand) ∧
    (∀ (hosts : List Host) (order : List String) (h : Host), h ∈ collapse hosts order →
      ∃ p, p ∈ hosts ∧ h.name = p.name ∧ h.user = p.user ∧ h.hostname = p.hostname ∧
        h.port = p.port ∧ h.proxyCommand = p.proxyCommand) := by
  refine ⟨fun h => rfl, fun p q r => mergeGroup_fields p (q :: r), collapse_mem⟩

/-- The lookup loop of the enter branch is first-match search over the
filtered collection. -/
theorem findHostByName_eq_find (l : List Host) (n : String) :
    findHostByName l n = l.find? (fun h => h.name == n) := by
  induction l with
  | nil => rfl
  | cons h t ih =>
    by_cases hh : (h.name == n) = true
    · simp [findHostByName, List.find?_cons, hh]
    · simp [findHostByName, List.find?_cons, hh, ih]

/-- A selected row of an empty table does not exist. -/
theorem selectedRow_of_empty (t : TableModel) (h : t.rows = []) :
    t.selectedRow = none := by
  simp [TableModel.selectedRow, h]

/-- C9: when enter is pressed and the cursor row exists and is non-empty,
the selected host becomes the first filtered host whose Name equals the
row's first column (so of two filtered hosts sharing a Name the earlier
wins), the session terminates, and when no filtered host matches the
model is returned with no selected host. -/
theorem c9_enter_resolves_first_name_match (m : Model) (c : String) (rest : List String)
    (hsel : m.selectedHost = none)
    (hrow : m.table.selectedRow = some (c :: rest)) :
    updateEnter m =
      ({ m with selectedHost := m.filteredHosts.find? (fun h => h.name == c) }, true) := by
  rw [← findHostByName_eq_find]
  simp only [updateEnter, hrow]
  cases hf : findHostByName m.filteredHosts c with
  | some h => simp [hf]
  | none =>
    simp only [hf]
    cases m with
    | mk hs fhs tv tb q sel =>
      simp only at hsel
      subst hsel
      rfl

/-- A concrete provisional host record used by witnesses. -/
def hA : Host :=
  { name := "a", aliases := "", user := "", hostname := "ha", port := "", proxyCommand := "" }

/-- A second concrete provisional host record used by witnesses. -/
def hB : Host :=
  { name := "b", aliases := "", user := "", hostname := "hb", port := "", proxyCommand := "" }

theorem c10_grouping_frame_witness :
    hA ∈ collapse [hA, hB] ["ha"] ∧
    (∃ p, p ∈ [hA, hB] ∧ hA.name = p.name ∧ hA.user = p.user ∧ hA.hostname = p.hostname ∧
      hA.port = p.port ∧ hA.proxyCommand = p.proxyCommand) :=
  ⟨by decide, c10_grouping_frame.2.2 [hA, hB] ["ha"] hA (by decide)⟩

/-- A controller state in the Filtering state (non-empty query) whose
filtered view is empty and whose table rows are in sync with it. -/
def emptyFilterModel : Model :=
  { hosts := [hA], filteredHosts := [], textValue := "zzz",
    table := { rows := [], cursor := 0 }, quitting := false, selectedHost := none }

/-- A controller state with one filtered host under the cursor. -/
def oneHostModel : Model :=
  { hosts := [hA], filteredHosts := [hA], textValue := "",
    table := { rows := hostsToRows [hA], cursor := 0 }, quitting := false,
    selectedHost := none }

theorem c9_enter_resolves_first_name_match_witness :
    oneHostModel.selectedHost = none ∧
    oneHostModel.table.selectedRow = some ("a" :: ["", "", "ha", ""]) ∧
    updateEnter oneHostModel =
      ({ oneHostModel with
          selectedHost := oneHostModel.filteredHosts.find? (fun h => h.name == "a") }, true) :=
  ⟨rfl, rfl, c9_enter_resolves_first_name_match oneHostModel "a" ["", "", "ha", ""] rfl rfl⟩

/-- C4 counterexample: the claim says that enter on an empty filtered
view is a no-op and the interactive session does not terminate; in the
code the enter branch returns a tea.Quit command unconditionally.  At
this concrete Filtering state (non-empty query, empty filtered view) the
enter event emits a quit command, so the session terminates. -/
theorem c4_counterexample_enter_quits_on_empty :
    emptyFilterModel.textValue ≠ "" ∧ emptyFilterModel.filteredHosts = [] ∧
    (updateEnter emptyFilterModel).2 = true := by
  decide

/-- C4 amended: when enter is pressed while the filtered view is empty
(its table rows in sync), no host is resolved and the model is unchanged,
but a quit command is emitted: the session terminates producing no
Host. -/
theorem c4_amended_empty_confirm_terminates (m : Model)
    (hf : m.filteredHosts = [])
    (hrows : m.table.rows = hostsToRows m.filteredHosts) :
    updateEnter m = (m, true) := by
  have hr : m.table.selectedRow = none :=
    selectedRow_of_empty m.table (by rw [hrows, hf]; rfl)
  simp [updateEnter, hr]

theorem c4_amended_empty_confirm_terminates_witness :
    emptyFilterModel.filteredHosts = [] ∧
    emptyFilterModel.table.rows = hostsToRows emptyFilterModel.filteredHosts ∧
    updateEnter emptyFilterModel = (emptyFilterModel, true) :=
  ⟨rfl, rfl, c4_amended_empty_confirm_terminates emptyFilterModel rfl rfl⟩

/-- C6: when opening a resolved path fails with not-found and the
original, unexpanded path is /etc/ssh/ssh_config, loading contributes
zero hosts with no error; a not-found failure on any other path, or an
open failure of any other kind on any path, is a fatal error carrying the
resolved offending path. -/
theorem c6_open_failure_policy (fuel : Nat) (fs : String → FsFile) (path home : String) :
    (fs (expandPath path home) = .notFound → path = "/etc/ssh/ssh_config" →
      loadSSHConfig (fuel + 1) fs path home = .ok []) ∧
    (fs (expandPath path home) = .notFound → path ≠ "/etc/ssh/ssh_config" →
      loadSSHConfig (fuel + 1) fs path home = .error (.openErr (expandPath path home))) ∧
    (fs (expandPath path home) = .openFailOther →
      loadSSHConfig (fuel + 1) fs path home = .error (.openErr (expandPath path home))) := by
  refine ⟨fun hfs hp => ?_, fun hfs hp => ?_, fun hfs => ?_⟩
  · subst hp
    simp [loadSSHConfig, hfs]
  · simp [loadSSHConfig, hfs, hp]
  · simp [loadSSHConfig, hfs]

/-- A filesystem in which every path is absent. -/
def fsAbsent : String → FsFile := fun _ => .notFound

/-- A filesystem in which every open fails for a reason other than
not-found. -/
def fsDenied : String → FsFile := fun _ => .openFailOther

theorem c6_open_failure_policy_witness :
    (fsAbsent (expandPath "/etc/ssh/ssh_config" "/h") = .notFound ∧
      loadSSHConfig 1 fsAbsent "/etc/ssh/ssh_config" "/h" = .ok []) ∧
    (fsAbsent (expandPath "/tmp/cfg" "/h") = .notFound ∧ "/tmp/cfg" ≠ "/etc/ssh/ssh_config" ∧
      loadSSHConfig 1 fsAbsent "/tmp/cfg" "/h" =
        .error (.openErr (expandPath "/tmp/cfg" "/h"))) ∧
    (fsDenied (expandPath "~/.ssh/config" "/h") = .openFailOther ∧
      loadSSHConfig 1 fsDenied "~/.ssh/config" "/h" =
        .error (.openErr (expandPath "~/.ssh/config" "/h"))) :=
  ⟨⟨rfl, (c6_open_failure_policy 0 fsAbsent "/etc/ssh/ssh_config" "/h").1 rfl rfl⟩,
   ⟨rfl, by decide,
    (c6_open_failure_policy 0 fsAbsent "/tmp/cfg" "/h").2.1 rfl (by decide)⟩,
   ⟨rfl, (c6_open_failure_policy 0 fsDenied "~/.ssh/config" "/h").2.2 rfl⟩⟩

/-- Every key produced by the key-collection loop is the hostname of some
host of the list. -/
theorem groupKeysAux_mem (l : List Host) :
    ∀ (seen : List String) (k : String), k ∈ groupKeysAux seen l →
      ∃ h, h ∈ l ∧ h.hostname = k := by
  induction l with
  | nil =>
    intro seen k hk
    simp [groupKeysAux] at hk
  | cons h t ih =>
    intro seen k hk
    simp only [groupKeysAux] at hk
    by_cases hs : h.hostname ∈ seen
    · rw [if_pos hs] at hk
      rcases ih _ _ hk with ⟨h', hh', he⟩
      exact ⟨h', List.mem_cons_of_mem _ hh', he⟩
    · rw [if_neg hs] at hk
      rcases List.mem_cons.mp hk with he | hk'
      · exact ⟨h, List.mem_cons_self _ _, he.symm⟩
      · rcases ih _ _ hk' with ⟨h', hh', he⟩
        exact ⟨h', List.mem_cons_of_mem _ hh', he⟩

/-- The key-collection loop emits no key of the seen accumulator and no
key twice: the grouping map holds one bucket per effective hostname. -/
theorem groupKeysAux_nodup (l : List Host) :
    ∀ seen : List String,
      (∀ k ∈ groupKeysAux seen l, k ∉ seen) ∧ (groupKeysAux seen l).Nodup := by
  induction l with
  | nil =>
    intro seen
    exact ⟨fun k hk => by simp [groupKeysAux] at hk, by simp [groupKeysAux]⟩
  | cons h t ih =>
    intro seen
    by_cases hs : h.hostname ∈ seen
    · simp only [groupKeysAux, if_pos hs]
      exact ih seen
    · simp only [groupKeysAux, if_neg hs]
      obtain ⟨ihn, ihd⟩ := ih (h.hostname :: seen)
      constructor
      · intro k hk
        rcases List.mem_cons.mp hk with rfl | hk'
        · exact hs
        · intro hkseen
          exact ihn k hk' (List.mem_cons_of_mem _ hkseen)
      · refine List.nodup_cons.mpr ⟨fun hmem => ?_, ihd⟩
        exact ihn _ hmem (List.mem_cons_self _ _)

/-- Visiting a key list in which every key is realized by some host maps,
under the grouping loop, to exactly one output host per key, whose
hostname is that key. -/
theorem collapse_map_hostname (hosts : List Host) :
    ∀ keys : List String, (∀ k ∈ keys, ∃ h, h ∈ hosts ∧ h.hostname = k) →
      (collapse hosts keys).map (fun h => h.hostname) = keys := by
  intro keys
  induction keys with
  | nil => intro _; rfl
  | cons k ks ih =>
    intro hk
    obtain ⟨h0, hh0, he0⟩ := hk k (List.mem_cons_self _ _)
    have hmem : h0 ∈ groupOf hosts k := by
      simp [groupOf, List.mem_filter, hh0, he0]
    rcases hg : groupOf hosts k with _ | ⟨p, r⟩
    · rw [hg] at hmem
      cases hmem
    · have hphost : p.hostname = k := by
        have hp : p ∈ groupOf hosts k := by
          rw [hg]
          exact List.mem_cons_self _ _
        exact beq_iff_eq.mp (List.mem_filter.mp hp).2
      rcases mergeGroup_fields p r with ⟨out, hout, _, _, h3, _, _⟩
      have hfk : mergeGroup (groupOf hosts k) = some out := by
        rw [hg]
        exact hout
      have ihk := ih (fun k' hk' => hk k' (List.mem_cons_of_mem _ hk'))
      simp only [collapse, List.filterMap_cons, hfk, List.map_cons]
      simp only [collapse] at ihk
      rw [h3, hphost, ihk]

/-- C2 amended: the final collection has exactly one entry per effective
hostname group (its hostnames, visited in first-discovery key order, are
exactly the distinct group keys), but the relative order of the groups
follows the unspecified Go map range order: for every admissible range
order the output is a permutation of the first-discovery-order output,
not necessarily that output itself. -/
theorem c2_amended_one_entry_per_group (hosts : List Host) (order : List String)
    (hadm : admissibleOrder hosts order) :
    (collapse hosts order).Perm (collapse hosts (groupKeys hosts)) ∧
    (collapse hosts (groupKeys hosts)).map (fun h => h.hostname) = groupKeys hosts ∧
    (groupKeys hosts).Nodup := by
  refine ⟨hadm.filterMap _, ?_, (groupKeysAux_nodup hosts []).2⟩
  exact collapse_map_hostname hosts (groupKeys hosts)
    (fun k hk => groupKeysAux_mem hosts [] k hk)

/-- The parsed block giving host a with hostname ha. -/
def cexBlockA : SSHHost := ⟨["a"], [Node.kv 2 "Hostname" "ha"]⟩

/-- The parsed block giving host b with hostname hb. -/
def cexBlockB : SSHHost := ⟨["b"], [Node.kv 2 "Hostname" "hb"]⟩

/-- A filesystem with one configuration file holding blocks a then b. -/
def cexFs : String → FsFile := fun p =>
  if p = "cfg" then .blocks [cexBlockA, cexBlockB] else .notFound

/-- C2 counterexample: the groups of this configuration are discovered in
the order ha, hb, so the claimed first-discovery output is the host list
a then b; the Go map range order is unspecified, and under the admissible
range order hb, ha the final collection of LoadSSHConfig is b then a,
which differs from first-discovery order. -/
theorem c2_counterexample_map_range_order :
    admissibleOrder [hA, hB] ["hb", "ha"] ∧
    [NewHost cexBlockA, NewHost cexBlockB] = [hA, hB] ∧
    groupKeys [hA, hB] = ["ha", "hb"] ∧
    LoadSSHConfig 1 cexFs "/h" ["cfg"] ["hb", "ha"] = .ok [hB, hA] ∧
    [hB, hA] ≠ [hA, hB] := by
  decide

theorem c2_amended_one_entry_per_group_witness :
    admissibleOrder [hA, hB] ["hb", "ha"] ∧
    ((collapse [hA, hB] ["hb", "ha"]).Perm (collapse [hA, hB] (groupKeys [hA, hB])) ∧
      (collapse [hA, hB] (groupKeys [hA, hB])).map (fun h => h.hostname) =
        groupKeys [hA, hB] ∧
      (groupKeys [hA, hB]).Nodup) :=
  ⟨by decide, c2_amended_one_entry_per_group [hA, hB] ["hb", "ha"] (by decide)⟩

/-- A block the loader may emit: it has at least one pattern and its
first pattern is not the universal wildcard. -/
def KeptBlock (b : SSHHost) : Prop :=
  b.patterns ≠ [] ∧ b.patterns.head? ≠ some "*"

/-- A block that occurs in some decoded file of the filesystem. -/
def InFs (fs : String → FsFile) (b : SSHHost) : Prop :=
  ∃ fp bs, fs fp = FsFile.blocks bs ∧ b ∈ bs

/-- Every block delivered by the include scan comes from the recursive
loader, so it satisfies whatever the loader guarantees. -/
theorem scanIncludes_sound (fs : String → FsFile)
    (load : String → Except LoadErr (List SSHHost))
    (Hload : ∀ p res, load p = .ok res → ∀ b ∈ res, KeptBlock b ∧ InFs fs b) :
    ∀ (nodes : List Node) (res : List SSHHost), scanIncludes load nodes = .ok res →
      ∀ b ∈ res, KeptBlock b ∧ InFs fs b := by
  intro nodes
  induction nodes with
  | nil =>
    intro res h b hb
    simp only [scanIncludes] at h
    cases h
    cases hb
  | cons n rest ih =>
    intro res h b hb
    simp only [scanIncludes] at h
    cases hcut : cutIncludeLine n with
    | none =>
      simp only [hcut] at h
      exact ih res h b hb
    | some incPath =>
      simp only [hcut] at h
      cases hl : load incPath with
      | error e =>
        simp only [hl] at h
        cases h
      | ok hs =>
        simp only [hl] at h
        cases hr : scanIncludes load rest with
        | error e =>
          simp only [hr] at h
          cases h
        | ok more =>
          simp only [hr] at h
          cases h
          rcases List.mem_append.mp hb with hbl | hbr
          · exact Hload _ _ hl b hbl
          · exact ih _ hr b hbr

/-- Every block emitted by the block loop either comes from the include
scan or is a kept input block: it is a kept block that occurs in the
filesystem, as long as the loader guarantees the same. -/
theorem processBlocks_sound (fs : String → FsFile)
    (load : String → Except LoadErr (List SSHHost))
    (Hload : ∀ p res, load p = .ok res → ∀ b ∈ res, KeptBlock b ∧ InFs fs b) :
    ∀ bs : List SSHHost, (∀ b ∈ bs, InFs fs b) →
      ∀ res, processBlocks load bs = .ok res → ∀ b ∈ res, KeptBlock b ∧ InFs fs b := by
  intro bs
  induction bs with
  | nil =>
    intro _ res h b hb
    simp only [processBlocks] at h
    cases h
    cases hb
  | cons blk rest ih =>
    intro hin res h b hb
    simp only [processBlocks] at h
    cases hinc : (if blk.patterns.head? = some "*" then scanIncludes load blk.nodes
        else Except.ok []) with
    | error e =>
      simp only [hinc] at h
      cases h
    | ok inc =>
      simp only [hinc] at h
      cases hr : processBlocks load rest with
      | error e =>
        simp only [hr] at h
        cases h
      | ok more =>
        simp only [hr] at h
        cases h
        rcases List.mem_append.mp hb with hb1 | hbm
        · rcases List.mem_append.mp hb1 with hbi | hbk
          · by_cases hw : blk.patterns.head? = some "*"
            · rw [if_pos hw] at hinc
              exact scanIncludes_sound fs load Hload _ _ hinc b hbi
            · rw [if_neg hw] at hinc
              cases hinc
              cases hbi
          · by_cases hk : blk.patterns = [] ∨ blk.patterns.head? = some "*"
            · rw [if_pos hk] at hbk
              cases hbk
            · rw [if_neg hk] at hbk
              obtain rfl := List.mem_singleton.mp hbk
              push_neg at hk
              exact ⟨⟨hk.1, hk.2⟩, hin b (List.mem_cons_self _ _)⟩
        · exact ih (fun b' hb' => hin b' (List.mem_cons_of_mem _ hb')) _ hr b hbm

/-- Every block returned by the per-file loader is a kept block occurring
in the filesystem. -/
theorem loadSSHConfig_sound (fs : String → FsFile) :
    ∀ (fuel : Nat) (path home : String) (res : List SSHHost),
      loadSSHConfig fuel fs path home = .ok res → ∀ b ∈ res, KeptBlock b ∧ InFs fs b := by
  intro fuel
  induction fuel with
  | zero =>
    intro path home res h
    simp [loadSSHConfig] at h
  | succ n ih =>
    intro path home res h b hb
    simp only [loadSSHConfig] at h
    cases hfs : fs (expandPath path home) with
    | notFound =>
      simp only [hfs] at h
      by_cases hp : path = "/etc/ssh/ssh_config"
      · rw [if_pos hp] at h
        cases h
        cases hb
      · rw [if_neg hp] at h
        cases h
    | openFailOther =>
      simp only [hfs] at h
      cases h
    | decodeFail =>
      simp only [hfs] at h
      cases h
    | blocks bs =>
      simp only [hfs] at h
      exact processBlocks_sound fs _ (fun p res' h' => ih p home res' h') bs
        (fun b' hb' => ⟨expandPath path home, bs, hfs, hb'⟩) res h b hb

/-- Every block returned by the path loop is a kept block occurring in
the filesystem. -/
theorem loadAllBlocks_sound (fs : String → FsFile) :
    ∀ (fuel : Nat) (home : String) (paths : List String) (res : List SSHHost),
      loadAllBlocks fuel fs home paths = .ok res → ∀ b ∈ res, KeptBlock b ∧ InFs fs b := by
  intro fuel home paths
  induction paths with
  | nil =>
    intro res h b hb
    simp only [loadAllBlocks] at h
    cases h
    cases hb
  | cons p rest ih =>
    intro res h b hb
    simp only [loadAllBlocks] at h
    cases hl : loadSSHConfig fuel fs p home with
    | error e =>
      simp only [hl] at h
      cases h
    | ok hs =>
      simp only [hl] at h
      cases hr : loadAllBlocks fuel fs home rest with
      | error e =>
        simp only [hr] at h
        cases h
      | ok more =>
        simp only [hr] at h
        cases h
        rcases List.mem_append.mp hb with hbl | hbr
        · exact loadSSHConfig_sound fs fuel p home hs hl b hbl
        · exact ih _ hr b hbr

/-- The name of a provisional host built from a block with patterns is
the first pattern. -/
theorem NewHost_name (b : SSHHost) (q : String) (qs : List String)
    (hpat : b.patterns = q :: qs) : (NewHost b).name = q := by
  simp [NewHost, hpat]

/-- A provisional host built from a block whose patterns exist and are
non-empty strings has a non-empty hostname: either an explicit hostname
directive value survives, or the first pattern is substituted. -/
theorem NewHost_hostname_ne (b : SSHHost) (hne : b.patterns ≠ [])
    (hstr : ∀ s ∈ b.patterns, s ≠ "") : (NewHost b).hostname ≠ "" := by
  obtain ⟨q, qs, hpat⟩ := List.exists_cons_of_ne_nil hne
  have hq : q ≠ "" := hstr q (by rw [hpat]; exact List.mem_cons_self _ _)
  by_cases hgo : getOptVal b "hostname" = ""
  · simpa [NewHost, hpat, hgo] using hq
  · simp [NewHost, hpat, hgo]

/-- C3: a host block whose first pattern is the universal wildcard never
survives loading, at either level: every block emitted by the per-file
loader has a first pattern other than the wildcard (wildcard blocks are
only scanned for Include directives), and every Host of the final
selectable collection has a name other than the wildcard. -/
theorem c3_wildcard_never_selectable :
    (∀ (fuel : Nat) (fs : String → FsFile) (path home : String) (res : List SSHHost),
      loadSSHConfig fuel fs path home = .ok res → ∀ b ∈ res, b.patterns.head? ≠ some "*") ∧
    (∀ (fuel : Nat) (fs : String → FsFile) (home : String) (paths order : List String)
      (hosts : List Host), LoadSSHConfig fuel fs home paths order = .ok hosts →
      ∀ h ∈ hosts, h.name ≠ "*") := by
  constructor
  · intro fuel fs path home res h b hb
    exact (loadSSHConfig_sound fs fuel path home res h b hb).1.2
  · intro fuel fs home paths order hosts h x hx
    cases hb : loadAllBlocks fuel fs home paths with
    | error e =>
      rw [LoadSSHConfig, hb] at h
      cases h
    | ok blocks =>
      rw [LoadSSHConfig, hb] at h
      cases h
      rcases collapse_mem _ order x hx with ⟨p, hp, hname, _⟩
      rcases List.mem_map.mp hp with ⟨b0, hb0, rfl⟩
      rcases loadAllBlocks_sound fs fuel home paths blocks hb b0 hb0 with ⟨⟨hne, hw⟩, _⟩
      obtain ⟨q, qs, hpat⟩ := List.exists_cons_of_ne_nil hne
      have hq : q ≠ "*" := by
        rw [hpat] at hw
        simpa using hw
      rw [hname, NewHost_name b0 q qs hpat]
      exact hq

/-- C7: when every pattern string the parser can produce is non-empty (a
guarantee of the upstream ssh_config tokenizer), every Host of the final
collection has a non-empty hostname: the hostname directive value when
one is present and non-empty, otherwise the block's first pattern. -/
theorem c7_hostname_nonempty (fuel : Nat) (fs : String → FsFile) (home : String)
    (paths order : List String) (hosts : List Host)
    (hfs : ∀ p bs, fs p = FsFile.blocks bs → ∀ b ∈ bs, ∀ s ∈ b.patterns, s ≠ "")
    (h : LoadSSHConfig fuel fs home paths order = .ok hosts) :
    ∀ x ∈ hosts, x.hostname ≠ "" := by
  intro x hx
  cases hb : loadAllBlocks fuel fs home paths with
  | error e =>
    rw [LoadSSHConfig, hb] at h
    cases h
  | ok blocks =>
    rw [LoadSSHConfig, hb] at h
    cases h
    rcases collapse_mem _ order x hx with ⟨p, hp, _, _, hhost, _⟩
    rcases List.mem_map.mp hp with ⟨b0, hb0, rfl⟩
    rcases loadAllBlocks_sound fs fuel home paths blocks hb b0 hb0 with ⟨⟨hne, _⟩, fp, bs, hfsp, hbmem⟩
    rw [hhost]
    exact NewHost_hostname_ne b0 hne (hfs fp bs hfsp b0 hbmem)

/-- A block defined in an included file. -/
def dbBlock : SSHHost := ⟨["db1"], [Node.kv 2 "Hostname" "10.0.0.9"]⟩

/-- The provisional host of dbBlock. -/
def dbHost : Host :=
  { name := "db1", aliases := "", user := "", hostname := "10.0.0.9", port := "",
    proxyCommand := "" }

/-- A wildcard block carrying an Include directive. -/
def wIncBlock : SSHHost := ⟨["*"], [Node.kv 0 "Include" "extra"]⟩

/-- A filesystem whose main file has a wildcard block including a second
file, followed by a normal block. -/
def c3Fs : String → FsFile := fun p =>
  if p = "cfg" then .blocks [wIncBlock, cexBlockA]
  else if p = "extra" then .blocks [dbBlock]
  else .notFound

theorem c3_wildcard_never_selectable_witness :
    (∀ b ∈ [dbBlock, cexBlockA], b.patterns.head? ≠ some "*") ∧
    (∀ h ∈ [dbHost, hA], h.name ≠ "*") :=
  ⟨c3_wildcard_never_selectable.1 2 c3Fs "cfg" "/h" [dbBlock, cexBlockA] rfl,
   c3_wildcard_never_selectable.2 2 c3Fs "/h" ["cfg"] ["10.0.0.9", "ha"] [dbHost, hA] rfl⟩

theorem c7_hostname_nonempty_witness :
    (∀ p bs, cexFs p = FsFile.blocks bs → ∀ b ∈ bs, ∀ s ∈ b.patterns, s ≠ "") ∧
    (∀ x ∈ [hA, hB], x.hostname ≠ "") := by
  have hfs : ∀ p bs, cexFs p = FsFile.blocks bs → ∀ b ∈ bs, ∀ s ∈ b.patterns, s ≠ "" := by
    intro p bs hp
    by_cases hc : p = "cfg"
    · simp only [cexFs, hc, if_pos] at hp
      cases hp
      decide
    · simp [cexFs, hc] at hp
  exact ⟨hfs, c7_hostname_nonempty 1 cexFs "/h" ["cfg"] ["ha", "hb"] [hA, hB] hfs rfl⟩

end Pssh
